import Mathlib

/-!
Verification of `syft/messaging/plan/procedure.py` (class `Procedure`).

The stored operation records are already-serialized ("simplified") Python
values: nested lists/tuples whose leaves are ints, strings, bytes or None.
We embed that value space as a mutual inductive (`PyObj`/`PyList`) so that
all recursions are structural and every definition is executable.

Python `==` on these values is structural equality, which `DecidableEq`
matches.  A raised Python exception is modelled as `Option.none` of the
embedding function.
-/

mutual
inductive PyObj : Type where
  | int : Int → PyObj
  | str : String → PyObj
  | bytes : String → PyObj
  | none : PyObj
  | list : PyList → PyObj
  | tuple : PyList → PyObj
deriving DecidableEq, Repr

inductive PyList : Type where
  | nil : PyList
  | cons : PyObj → PyList → PyList
deriving DecidableEq, Repr
end

/-- Build a `PyList` from a Lean list (notation convenience only). -/
def ofList : List PyObj → PyList
  | [] => PyList.nil
  | x :: xs => PyList.cons x (ofList xs)

/-- Flatten a `PyList` back to a Lean list. -/
def toList : PyList → List PyObj
  | PyList.nil => []
  | PyList.cons x xs => x :: toList xs

theorem toList_ofList : ∀ xs : List PyObj, toList (ofList xs) = xs
  | [] => rfl
  | x :: xs => by simp [ofList, toList, toList_ofList xs]

/-- Python tuple literal helper. -/
def pyTuple (xs : List PyObj) : PyObj := PyObj.tuple (ofList xs)

/-- Python list literal helper. -/
def pyList (xs : List PyObj) : PyObj := PyObj.list (ofList xs)

/-- Number of elements of a `PyList` (Python `len`). -/
def PyList.length : PyList → Nat
  | PyList.nil => 0
  | PyList.cons _ xs => PyList.length xs + 1

/-- Indexing into a `PyList` (Python `seq[i]` for `i ≥ 0`). -/
def PyList.get? : PyList → Nat → Option PyObj
  | PyList.nil, _ => Option.none
  | PyList.cons x _, 0 => some x
  | PyList.cons _ xs, n + 1 => PyList.get? xs n

/-- Python `x in l` membership test, by `==` (structural) equality. -/
def pyMem (l : List PyObj) (x : PyObj) : Bool :=
  match l with
  | [] => false
  | y :: ys => if y = x then true else pyMem ys x

/-- Python `l.index(x)`: index of the first element `==`-equal to `x`. -/
def firstIdx (l : List PyObj) (x : PyObj) : Nat :=
  match l with
  | [] => 0
  | y :: ys => if y = x then 0 else firstIdx ys x + 1

/-- Python truthiness (`bool(x)`) on the embedded values. -/
def truthy : PyObj → Bool
  | PyObj.int n => n != 0
  | PyObj.str s => s != ""
  | PyObj.bytes b => b != ""
  | PyObj.none => false
  | PyObj.list PyList.nil => false
  | PyObj.list (PyList.cons _ _) => true
  | PyObj.tuple PyList.nil => false
  | PyObj.tuple (PyList.cons _ _) => true

/-- The leaf shape `replace_operation_ids` recognizes as a candidate
identifier: `isinstance(item, (int, tuple))`. -/
def isIdShape : PyObj → Bool
  | PyObj.int _ => true
  | PyObj.tuple _ => true
  | _ => false

/-- The source's replacement test on one element:
`isinstance(item, (int, tuple)) and item in from_ids`. -/
def isMatch (from_ids : List PyObj) (x : PyObj) : Bool :=
  isIdShape x && pyMem from_ids x

mutual
/-- Embedding of the element loop of `Procedure.replace_operation_ids`
applied to one element `item` of a record:

    if isinstance(item, (int, tuple)) and item in from_ids:
        operation[i] = to_ids[from_ids.index(item)]
    elif isinstance(item, (list, tuple)):
        operation[i] = Procedure.replace_operation_ids(item, from_ids, to_ids)

`Option.none` models a raised `IndexError` (`to_ids[...]` out of range). -/
def replaceObj (from_ids to_ids : List PyObj) : PyObj → Option PyObj
  | PyObj.int n =>
      if pyMem from_ids (PyObj.int n) then to_ids.get? (firstIdx from_ids (PyObj.int n))
      else some (PyObj.int n)
  | PyObj.tuple ys =>
      if pyMem from_ids (PyObj.tuple ys) then to_ids.get? (firstIdx from_ids (PyObj.tuple ys))
      else
        match replacePyList from_ids to_ids ys with
        | some zs => some (PyObj.tuple zs)
        | Option.none => Option.none
  | PyObj.list ys =>
      match replacePyList from_ids to_ids ys with
      | some zs => some (PyObj.list zs)
      | Option.none => Option.none
  | x => some x

/-- Elementwise processing of a record's items (the `for i, item in
enumerate(operation)` loop; the loop writes into a fresh `list(operation)`
copy, so it is exactly an elementwise map; an exception aborts the call). -/
def replacePyList (from_ids to_ids : List PyObj) : PyList → Option PyList
  | PyList.nil => some PyList.nil
  | PyList.cons x xs =>
      match replaceObj from_ids to_ids x, replacePyList from_ids to_ids xs with
      | some a, some bs => some (PyList.cons a bs)
      | _, _ => Option.none
end

/-- The `Procedure` data model (`__init__`): ordered operations plus the
`arg_ids`/`result_ids` bookkeeping and the optional `promise_out_id`
(Python `None` when absent).  The Python-level list-vs-tuple container kind
of the three id-sequence attributes themselves is not tracked (claims only
concern their contents); elements are tracked exactly. -/
structure Procedure : Type where
  operations : List PyObj
  arg_ids : List PyObj
  result_ids : List PyObj
  promise_out_id : PyObj
deriving DecidableEq, Repr

/-- Embedding of the static method `Procedure.replace_operation_ids`.
The top-level record is rebuilt with its own container type
(`type_obj(operation)`) and, unlike its items, is never itself tested for
membership in `from_ids`.  A non-sequence argument makes the source's
`list(operation)` raise; stored operation records are list/tuple shaped, so
that branch is modelled as a failure. -/
def Procedure.replace_operation_ids (operation : PyObj) (from_ids to_ids : List PyObj) :
    Option PyObj :=
  match operation with
  | PyObj.list ys =>
      match replacePyList from_ids to_ids ys with
      | some zs => some (PyObj.list zs)
      | Option.none => Option.none
  | PyObj.tuple ys =>
      match replacePyList from_ids to_ids ys with
      | some zs => some (PyObj.tuple zs)
      | Option.none => Option.none
  | _ => Option.none

/-- Modelled from the spec: opaque numeric type code used by the external
codec when encoding a string (distinct from the other codes). -/
def strCode : Int := 5

/-- Modelled from the spec: opaque numeric type code for an encoded list. -/
def listCode : Int := 2

/-- Modelled from the spec: opaque numeric type code for an encoded tuple. -/
def tupleCode : Int := 3

mutual
/-- Modelled from the spec: the external codec `sy.serde._simplify` (not part
of this component's source).  Per the spec it is a deterministic "opaque
bijection" to "a primitive representation (integer, or tuple-of-primitives
for strings)": an identifier encodes to "a raw integer, or a tuple produced
by encoding a string id"; containers encode elementwise under a type code;
values with no registered simplifier (ints, bytes, `None`) pass through
unchanged. -/
def simplifyObj : PyObj → PyObj
  | PyObj.int n => PyObj.int n
  | PyObj.str s => PyObj.tuple (ofList [PyObj.int strCode, PyObj.tuple (ofList [PyObj.bytes s])])
  | PyObj.bytes b => PyObj.bytes b
  | PyObj.none => PyObj.none
  | PyObj.list xs => PyObj.tuple (ofList [PyObj.int listCode, PyObj.tuple (simplifyPyList xs)])
  | PyObj.tuple xs => PyObj.tuple (ofList [PyObj.int tupleCode, PyObj.tuple (simplifyPyList xs)])

/-- Modelled from the spec: elementwise encoding of a container's items. -/
def simplifyPyList : PyList → PyList
  | PyList.nil => PyList.nil
  | PyList.cons x xs => PyList.cons (simplifyObj x) (simplifyPyList xs)
end

mutual
/-- Modelled from the spec: the external codec `sy.serde._detail`, "an exact
inverse decoding" of `simplifyObj`; unrecognized values pass through. -/
def detailObj : PyObj → PyObj
  | PyObj.tuple (PyList.cons (PyObj.int c) (PyList.cons (PyObj.tuple payload) PyList.nil)) =>
      if c = strCode then
        match payload with
        | PyList.cons (PyObj.bytes s) PyList.nil => PyObj.str s
        | p => PyObj.tuple (PyList.cons (PyObj.int c) (PyList.cons (PyObj.tuple p) PyList.nil))
      else if c = listCode then PyObj.list (detailPyList payload)
      else if c = tupleCode then PyObj.tuple (detailPyList payload)
      else PyObj.tuple (PyList.cons (PyObj.int c) (PyList.cons (PyObj.tuple payload) PyList.nil))
  | x => x

/-- Modelled from the spec: elementwise decoding of a container's items. -/
def detailPyList : PyList → PyList
  | PyList.nil => PyList.nil
  | PyList.cons x xs => PyList.cons (detailObj x) (detailPyList xs)
end

/-- Per-operation body of the `for idx, operation in enumerate(self.operations)`
loop of `Procedure.update_ids`: the worker substitution runs first (when its
guard held), then the id-list substitution (when its guard held).  The
guards mirror the source exactly: `if from_worker and to_worker:`
(truthiness) and `if len(from_ids) and len(to_ids):`. -/
def stepOp (from_ids to_ids : List PyObj) (from_worker to_worker : PyObj) (op : PyObj) :
    Option PyObj :=
  match
    (if truthy from_worker && truthy to_worker then
      Procedure.replace_operation_ids op [simplifyObj from_worker] [simplifyObj to_worker]
    else some op) with
  | some op1 =>
      if from_ids.length != 0 && to_ids.length != 0 then
        Procedure.replace_operation_ids op1 (List.map simplifyObj from_ids)
          (List.map simplifyObj to_ids)
      else some op1
  | Option.none => Option.none

/-- Elementwise effectful map over the stored operations.  The source writes
`self.operations[idx] = operation` index by index; on success that equals
this elementwise map.  A raised exception (modelled `Option.none`) aborts
the call (the partially-rewritten in-place state after an exception is not
observed by any claim). -/
def mapOpt (g : PyObj → Option PyObj) : List PyObj → Option (List PyObj)
  | [] => some []
  | x :: xs =>
      match g x, mapOpt g xs with
      | some y, some ys => some (y :: ys)
      | _, _ => Option.none

/-- Embedding of `Procedure.update_ids` (the general substitution entry
point).  The source returns `self`; here the updated procedure is returned
(`Option.none` models a raised exception). -/
def Procedure.update_ids (p : Procedure) (from_ids to_ids : List PyObj)
    (from_worker to_worker : PyObj) : Option Procedure :=
  match mapOpt (stepOp from_ids to_ids from_worker to_worker) p.operations with
  | some ops =>
      some { operations := ops, arg_ids := p.arg_ids, result_ids := p.result_ids,
             promise_out_id := p.promise_out_id }
  | Option.none => Option.none

/-- Embedding of `Procedure.update_worker_ids`:
`return self.update_ids([], [], from_worker_id, to_worker_id)`. -/
def Procedure.update_worker_ids (p : Procedure) (from_worker_id to_worker_id : PyObj) :
    Option Procedure :=
  Procedure.update_ids p [] [] from_worker_id to_worker_id

/-- A value-handle exposing an identifier (`arg.id` in the source: tensors
are opaque here beyond their `id` attribute). -/
structure ValueHandle : Type where
  id : PyObj

/-- Embedding of `Procedure.update_args`: rewrite old arg ids to the new
args' ids, install the new `arg_ids`, then do the same for `result_ids`. -/
def Procedure.update_args (p : Procedure) (args : List ValueHandle)
    (result_ids : List PyObj) : Option Procedure :=
  let arg_ids := List.map (fun a => a.id) args
  match Procedure.update_ids p p.arg_ids arg_ids PyObj.none PyObj.none with
  | some p1 =>
      let p1a : Procedure :=
        { operations := p1.operations, arg_ids := arg_ids,
          result_ids := p1.result_ids, promise_out_id := p1.promise_out_id }
      match Procedure.update_ids p1a p1a.result_ids result_ids PyObj.none PyObj.none with
      | some p2 =>
          some { operations := p2.operations, arg_ids := p2.arg_ids,
                 result_ids := result_ids, promise_out_id := p2.promise_out_id }
      | Option.none => Option.none
  | Option.none => Option.none

mutual
/-- Embedding of `copy.deepcopy` on a stored value: a structurally equal,
freshly allocated clone (allocation identity is not observable here). -/
def deepcopyObj : PyObj → PyObj
  | PyObj.int n => PyObj.int n
  | PyObj.str s => PyObj.str s
  | PyObj.bytes b => PyObj.bytes b
  | PyObj.none => PyObj.none
  | PyObj.list xs => PyObj.list (deepcopyPyList xs)
  | PyObj.tuple xs => PyObj.tuple (deepcopyPyList xs)

/-- Elementwise deep copy of a container's items. -/
def deepcopyPyList : PyList → PyList
  | PyList.nil => PyList.nil
  | PyList.cons x xs => PyList.cons (deepcopyObj x) (deepcopyPyList xs)
end

/-- Embedding of `Procedure.copy`: `operations` is deep-copied, the id
sequences are passed through (shared by reference in the source), and the
constructor leaves `promise_out_id` at `None` (it is not propagated). -/
def Procedure.copy (p : Procedure) : Procedure :=
  { operations := List.map deepcopyObj p.operations,
    arg_ids := p.arg_ids, result_ids := p.result_ids, promise_out_id := PyObj.none }

/-- Embedding of the static method `Procedure.simplify`: the 4-tuple of the
shallow-encoded operations list (only the outer container is encoded, the
records are already simplified), the fully encoded id sequences, and the
encoded `promise_out_id`. -/
def Procedure.simplify (p : Procedure) : PyObj :=
  PyObj.tuple (ofList [
    PyObj.tuple (ofList [PyObj.int listCode, PyObj.tuple (ofList p.operations)]),
    simplifyObj (PyObj.list (ofList p.arg_ids)),
    simplifyObj (PyObj.list (ofList p.result_ids)),
    simplifyObj p.promise_out_id])

/-- Modelled from the spec: the shallow variant of `sy.serde._detail` used on
the operations field — the outer encoded list container is decoded, its
elements are taken as-is. -/
def detailShallowList : PyObj → Option (List PyObj)
  | PyObj.tuple (PyList.cons (PyObj.int c) (PyList.cons (PyObj.tuple xs) PyList.nil)) =>
      if c = listCode then some (toList xs) else Option.none
  | _ => Option.none

/-- Embedding of the static method `Procedure.detail`: destructure the
4-tuple, decode `operations` shallowly and the id sequences fully, build the
`Procedure`, and then assign the fourth field to `promise_out_id` — the
source assigns it raw, WITHOUT calling `_detail` on it.  (The typed fields
require the decoded id sequences to be lists, which they are on every
encoded `Procedure`; other inputs are modelled as failures.) -/
def Procedure.detail (t : PyObj) : Option Procedure :=
  match t with
  | PyObj.tuple (PyList.cons opsS (PyList.cons argsS (PyList.cons resS
      (PyList.cons pidS PyList.nil)))) =>
      match detailShallowList opsS, detailObj argsS, detailObj resS with
      | some ops, PyObj.list args, PyObj.list res =>
          some { operations := ops, arg_ids := toList args, result_ids := toList res,
                 promise_out_id := pidS }
      | _, _, _ => Option.none
  | _ => Option.none

/-- Child of a record at an index (only containers have children). -/
def childAt : PyObj → Nat → Option PyObj
  | PyObj.list xs, i => PyList.get? xs i
  | PyObj.tuple xs, i => PyList.get? xs i
  | _, _ => Option.none

/-- Subterm of a record at an index path (`[]` is the record itself). -/
def sub (x : PyObj) : List Nat → Option PyObj
  | [] => some x
  | i :: path =>
      match childAt x i with
      | some y => sub y path
      | Option.none => Option.none

/-- True when no node on the path from `z` (inclusive) down to the addressed
subterm (exclusive) is itself replaced by the substitution — i.e. no strict
ancestor that the rewrite tests is a matched identifier.  Below a matched
ancestor the rewrite substitutes wholesale and says nothing pointwise. -/
def okAboveI (from_ids : List PyObj) : PyObj → List Nat → Bool
  | _, [] => true
  | z, i :: path =>
      !(isMatch from_ids z) &&
        (match childAt z i with
         | some y => okAboveI from_ids y path
         | Option.none => true)

/-- Variant of `okAboveI` for a path from the top-level operation record:
the top-level record itself is never tested by the rewrite, so only the
items strictly between it and the addressed subterm matter. -/
def noReplacedAncestor (from_ids : List PyObj) (op : PyObj) : List Nat → Bool
  | [] => true
  | i :: path =>
      match childAt op i with
      | some y => okAboveI from_ids y path
      | Option.none => true

/-- Container kind (list = `true`, tuple = `false`) and arity of a node;
`Option.none` on leaves. -/
def kindLen : PyObj → Option (Bool × Nat)
  | PyObj.list xs => some (true, PyList.length xs)
  | PyObj.tuple xs => some (false, PyList.length xs)
  | _ => Option.none

/-- Whether a node is a sequence container (list or tuple). -/
def isSeq : PyObj → Bool
  | PyObj.list _ => true
  | PyObj.tuple _ => true
  | _ => false

/-- Simultaneous induction principle for `PyObj` (derived from the mutual
recursor). -/
theorem pyInd (P : PyObj → Prop) (Q : PyList → Prop)
    (h1 : ∀ n, P (PyObj.int n)) (h2 : ∀ s, P (PyObj.str s))
    (h3 : ∀ b, P (PyObj.bytes b)) (h4 : P PyObj.none)
    (h5 : ∀ xs, Q xs → P (PyObj.list xs)) (h6 : ∀ xs, Q xs → P (PyObj.tuple xs))
    (h7 : Q PyList.nil) (h8 : ∀ x xs, P x → Q xs → Q (PyList.cons x xs)) :
    ∀ x, P x :=
  fun x => @PyObj.rec P Q h1 h2 h3 h4 h5 h6 h7 h8 x

/-- Companion to `pyInd` for the list side. -/
theorem pyIndL (P : PyObj → Prop) (Q : PyList → Prop)
    (h1 : ∀ n, P (PyObj.int n)) (h2 : ∀ s, P (PyObj.str s))
    (h3 : ∀ b, P (PyObj.bytes b)) (h4 : P PyObj.none)
    (h5 : ∀ xs, Q xs → P (PyObj.list xs)) (h6 : ∀ xs, Q xs → P (PyObj.tuple xs))
    (h7 : Q PyList.nil) (h8 : ∀ x xs, P x → Q xs → Q (PyList.cons x xs)) :
    ∀ xs, Q xs :=
  fun xs => @PyList.rec P Q h1 h2 h3 h4 h5 h6 h7 h8 xs

theorem firstIdx_lt (x : PyObj) :
    ∀ l : List PyObj, pyMem l x = true → firstIdx l x < l.length := by
  intro l
  induction l with
  | nil => intro h; simp [pyMem] at h
  | cons y ys ih =>
      intro h
      by_cases hy : y = x
      · simp [firstIdx, hy]
      · simp only [pyMem, if_neg hy] at h
        simp only [firstIdx, if_neg hy, List.length_cons]
        exact Nat.succ_lt_succ (ih h)

theorem getq_of_lt : ∀ (l : List PyObj) (n : Nat), n < l.length → ∃ a, l.get? n = some a := by
  intro l
  induction l with
  | nil => intro n h; simp at h
  | cons y ys ih =>
      intro n h
      cases n with
      | zero => exact ⟨y, rfl⟩
      | succ m =>
          simp only [List.length_cons, Nat.succ_lt_succ_iff] at h
          exact ih m h

theorem replacePyList_length (f t : List PyObj) :
    ∀ xs ys, replacePyList f t xs = some ys → PyList.length ys = PyList.length xs
  | PyList.nil, ys, h => by
      simp [replacePyList] at h; simp [← h]
  | PyList.cons x xs, ys, h => by
      simp only [replacePyList] at h
      cases ha : replaceObj f t x with
      | none => rw [ha] at h; simp at h
      | some a =>
          cases hb : replacePyList f t xs with
          | none => rw [ha, hb] at h; simp at h
          | some bs =>
              rw [ha, hb] at h
              simp at h
              subst h
              simp [PyList.length, replacePyList_length f t xs bs hb]

theorem replacePyList_get (f t : List PyObj) :
    ∀ xs ys, replacePyList f t xs = some ys →
      ∀ i y, PyList.get? xs i = some y →
        ∃ w, PyList.get? ys i = some w ∧ replaceObj f t y = some w
  | PyList.nil, ys, h, i, y, hy => by
      simp [PyList.get?] at hy
  | PyList.cons x xs, ys, h, i, y, hy => by
      simp only [replacePyList] at h
      cases ha : replaceObj f t x with
      | none => rw [ha] at h; simp at h
      | some a =>
          cases hb : replacePyList f t xs with
          | none => rw [ha, hb] at h; simp at h
          | some bs =>
              rw [ha, hb] at h
              simp at h
              subst h
              cases i with
              | zero =>
                  simp only [PyList.get?] at hy
                  cases hy
                  exact ⟨a, rfl, ha⟩
              | succ m =>
                  simp only [PyList.get?] at hy ⊢
                  exact replacePyList_get f t xs bs hb m y hy

theorem replaceObj_matched (f t : List PyObj) (x : PyObj) (h : isMatch f x = true) :
    replaceObj f t x = t.get? (firstIdx f x) := by
  cases x <;> simp_all [isMatch, isIdShape, replaceObj]

theorem replaceObj_atom (f t : List PyObj) (x : PyObj) (hs : isSeq x = false)
    (hm : isMatch f x = false) : replaceObj f t x = some x := by
  cases x <;> simp_all [isMatch, isIdShape, isSeq, replaceObj]

theorem replaceObj_list (f t : List PyObj) (xs : PyList) (w : PyObj)
    (h : replaceObj f t (PyObj.list xs) = some w) :
    ∃ zs, replacePyList f t xs = some zs ∧ w = PyObj.list zs := by
  simp only [replaceObj] at h
  cases hb : replacePyList f t xs with
  | none => rw [hb] at h; simp at h
  | some zs => rw [hb] at h; simp at h; exact ⟨zs, rfl, h.symm⟩

theorem replaceObj_tuple_unmatched (f t : List PyObj) (xs : PyList) (w : PyObj)
    (hm : isMatch f (PyObj.tuple xs) = false)
    (h : replaceObj f t (PyObj.tuple xs) = some w) :
    ∃ zs, replacePyList f t xs = some zs ∧ w = PyObj.tuple zs := by
  simp only [isMatch, isIdShape, Bool.true_and] at hm
  simp only [replaceObj, hm, Bool.false_eq_true, if_false] at h
  cases hb : replacePyList f t xs with
  | none => rw [hb] at h; simp at h
  | some zs => rw [hb] at h; simp at h; exact ⟨zs, rfl, h.symm⟩

/-- Pointwise characterization of the rewrite below one processed item `z`:
along any path with no replaced strict ancestor, a matched identifier leaf
becomes the parallel `to_ids` entry, an unmatched non-sequence leaf is
unchanged, and an unmatched container keeps its kind and arity. -/
theorem replaceObj_path (f t : List PyObj) :
    ∀ (path : List Nat) (z w : PyObj),
      replaceObj f t z = some w → okAboveI f z path = true →
      ∀ x, sub z path = some x →
        (isMatch f x = true → sub w path = t.get? (firstIdx f x))
        ∧ (isMatch f x = false → isSeq x = false → sub w path = some x)
        ∧ (isMatch f x = false → ∀ k, kindLen x = some k →
            ∃ y, sub w path = some y ∧ kindLen y = some k) := by
  intro path
  induction path with
  | nil =>
      intro z w hr _ x hx
      simp only [sub] at hx
      cases hx
      refine ⟨?_, ?_, ?_⟩
      · intro hm
        rw [replaceObj_matched f t z hm] at hr
        simp only [sub]
        exact hr.symm
      · intro hm hs
        rw [replaceObj_atom f t z hs hm] at hr
        simp at hr
        simp [sub, hr]
      · intro hm k hk
        cases z with
        | list xs =>
            obtain ⟨zs, hzs, hw⟩ := replaceObj_list f t xs w hr
            subst hw
            refine ⟨PyObj.list zs, by simp [sub], ?_⟩
            simp only [kindLen] at hk ⊢
            rw [replacePyList_length f t xs zs hzs]
            exact hk
        | tuple xs =>
            obtain ⟨zs, hzs, hw⟩ := replaceObj_tuple_unmatched f t xs w hm hr
            subst hw
            refine ⟨PyObj.tuple zs, by simp [sub], ?_⟩
            simp only [kindLen] at hk ⊢
            rw [replacePyList_length f t xs zs hzs]
            exact hk
        | int n => simp [kindLen] at hk
        | str s => simp [kindLen] at hk
        | bytes b => simp [kindLen] at hk
        | none => simp [kindLen] at hk
  | cons i path ih =>
      intro z w hr hok x hx
      simp only [sub] at hx
      cases hcz : childAt z i with
      | none => rw [hcz] at hx; simp at hx
      | some y =>
          rw [hcz] at hx
          simp only [okAboveI, hcz, Bool.and_eq_true, Bool.not_eq_eq_eq_not, Bool.not_true] at hok
          obtain ⟨hzm, hoky⟩ := hok
          cases z with
          | list xs =>
              obtain ⟨zs, hzs, hw⟩ := replaceObj_list f t xs w hr
              subst hw
              simp only [childAt] at hcz
              obtain ⟨w1, hw1, hrw1⟩ := replacePyList_get f t xs zs hzs i y hcz
              have hres := ih y w1 hrw1 hoky x hx
              refine ⟨?_, ?_, ?_⟩
              · intro hm
                simp only [sub, childAt, hw1]
                exact hres.1 hm
              · intro hm hs
                simp only [sub, childAt, hw1]
                exact hres.2.1 hm hs
              · intro hm k hk
                simp only [sub, childAt, hw1]
                exact hres.2.2 hm k hk
          | tuple xs =>
              have hzm' : isMatch f (PyObj.tuple xs) = false := hzm
              obtain ⟨zs, hzs, hw⟩ := replaceObj_tuple_unmatched f t xs w hzm' hr
              subst hw
              simp only [childAt] at hcz
              obtain ⟨w1, hw1, hrw1⟩ := replacePyList_get f t xs zs hzs i y hcz
              have hres := ih y w1 hrw1 hoky x hx
              refine ⟨?_, ?_, ?_⟩
              · intro hm
                simp only [sub, childAt, hw1]
                exact hres.1 hm
              · intro hm hs
                simp only [sub, childAt, hw1]
                exact hres.2.1 hm hs
              · intro hm k hk
                simp only [sub, childAt, hw1]
                exact hres.2.2 hm k hk
          | int n => simp [childAt] at hcz
          | str s => simp [childAt] at hcz
          | bytes b => simp [childAt] at hcz
          | none => simp [childAt] at hcz

theorem pyMem_singleton (s x : PyObj) (h : pyMem [s] x = true) : s = x := by
  by_cases hs : s = x
  · exact hs
  · simp [pyMem, hs] at h

/-- Substituting an encoded id for itself rewrites every element to itself. -/
theorem replaceObj_self (s : PyObj) :
    ∀ x, ∀ w, replaceObj [s] [s] x = some w → w = x := by
  refine pyInd (fun x => ∀ w, replaceObj [s] [s] x = some w → w = x)
    (fun xs => ∀ ws, replacePyList [s] [s] xs = some ws → ws = xs)
    ?_ ?_ ?_ ?_ ?_ ?_ ?_ ?_
  · intro n w h
    simp only [replaceObj] at h
    by_cases hm : pyMem [s] (PyObj.int n) = true
    · have hs := pyMem_singleton s (PyObj.int n) hm
      rw [hm] at h
      simp [firstIdx, hs] at h
      simp [← h, hs]
    · simp only [Bool.not_eq_true] at hm
      rw [hm] at h
      simp at h
      exact h.symm
  · intro a w h; simp only [replaceObj] at h; simp at h; exact h.symm
  · intro b w h; simp only [replaceObj] at h; simp at h; exact h.symm
  · intro w h; simp only [replaceObj] at h; simp at h; exact h.symm
  · intro xs hq w h
    obtain ⟨zs, hzs, hw⟩ := replaceObj_list [s] [s] xs w h
    rw [hw, hq zs hzs]
  · intro xs hq w h
    simp only [replaceObj] at h
    by_cases hm : pyMem [s] (PyObj.tuple xs) = true
    · have hs := pyMem_singleton s (PyObj.tuple xs) hm
      rw [hm] at h
      simp [firstIdx, hs] at h
      simp [← h, hs]
    · simp only [Bool.not_eq_true] at hm
      rw [hm] at h
      simp only [Bool.false_eq_true, if_false] at h
      cases hb : replacePyList [s] [s] xs with
      | none => rw [hb] at h; simp at h
      | some zs => rw [hb] at h; simp at h; rw [← h, hq zs hb]
  · intro ws h; simp [replacePyList] at h; exact h.symm
  · intro x xs hp hq ws h
    simp only [replacePyList] at h
    cases ha : replaceObj [s] [s] x with
    | none => rw [ha] at h; simp at h
    | some a =>
        cases hb : replacePyList [s] [s] xs with
        | none => rw [ha, hb] at h; simp at h
        | some bs =>
            rw [ha, hb] at h
            simp at h
            rw [← h, hp a ha, hq bs hb]

/-- List-level identity substitution, derived through the (never-matched)
list constructor. -/
theorem replacePyList_self (s : PyObj) (xs ws : PyList)
    (h : replacePyList [s] [s] xs = some ws) : ws = xs := by
  have hobj := replaceObj_self s (PyObj.list xs) (PyObj.list ws)
    (by simp only [replaceObj, h])
  injection hobj

/-- Top-level version of `replaceObj_self`: `replace_operation_ids` with a
one-element identity substitution returns the record unchanged. -/
theorem replace_operation_ids_self (s : PyObj) (op w : PyObj)
    (h : Procedure.replace_operation_ids op [s] [s] = some w) : w = op := by
  cases op with
  | list ys =>
      simp only [Procedure.replace_operation_ids] at h
      cases hb : replacePyList [s] [s] ys with
      | none => rw [hb] at h; simp at h
      | some zs =>
          rw [hb] at h; simp at h
          rw [← h, replacePyList_self s ys zs hb]
  | tuple ys =>
      simp only [Procedure.replace_operation_ids] at h
      cases hb : replacePyList [s] [s] ys with
      | none => rw [hb] at h; simp at h
      | some zs =>
          rw [hb] at h; simp at h
          rw [← h, replacePyList_self s ys zs hb]
  | int n => simp [Procedure.replace_operation_ids] at h
  | str a => simp [Procedure.replace_operation_ids] at h
  | bytes b => simp [Procedure.replace_operation_ids] at h
  | none => simp [Procedure.replace_operation_ids] at h

/-- When `to_ids` is at least as long as `from_ids`, every matched leaf's
index is in range, so the rewrite of any element always succeeds. -/
theorem replaceObj_total (f t : List PyObj) (hlen : f.length ≤ t.length) :
    ∀ x, ∃ w, replaceObj f t x = some w := by
  have hget : ∀ x, pyMem f x = true → ∃ w, t.get? (firstIdx f x) = some w := by
    intro x hm
    exact getq_of_lt t (firstIdx f x) (Nat.lt_of_lt_of_le (firstIdx_lt x f hm) hlen)
  refine pyInd (fun x => ∃ w, replaceObj f t x = some w)
    (fun xs => ∃ ws, replacePyList f t xs = some ws) ?_ ?_ ?_ ?_ ?_ ?_ ?_ ?_
  · intro n
    by_cases hm : pyMem f (PyObj.int n) = true
    · obtain ⟨w, hw⟩ := hget (PyObj.int n) hm
      exact ⟨w, by simp only [replaceObj, hm, if_true, hw]⟩
    · simp only [Bool.not_eq_true] at hm
      exact ⟨PyObj.int n, by simp only [replaceObj, hm, Bool.false_eq_true, if_false]⟩
  · intro a; exact ⟨PyObj.str a, rfl⟩
  · intro b; exact ⟨PyObj.bytes b, rfl⟩
  · exact ⟨PyObj.none, rfl⟩
  · intro xs ⟨ws, hws⟩
    exact ⟨PyObj.list ws, by simp only [replaceObj, hws]⟩
  · intro xs ⟨ws, hws⟩
    by_cases hm : pyMem f (PyObj.tuple xs) = true
    · obtain ⟨w, hw⟩ := hget (PyObj.tuple xs) hm
      exact ⟨w, by simp only [replaceObj, hm, if_true, hw]⟩
    · simp only [Bool.not_eq_true] at hm
      exact ⟨PyObj.tuple ws,
        by simp only [replaceObj, hm, Bool.false_eq_true, if_false, hws]⟩
  · exact ⟨PyList.nil, rfl⟩
  · intro x xs ⟨w, hw⟩ ⟨ws, hws⟩
    exact ⟨PyList.cons w ws, by simp only [replacePyList, hw, hws]⟩

/-- List-level form of `replaceObj_total`. -/
theorem replacePyList_total (f t : List PyObj) (hlen : f.length ≤ t.length)
    (xs : PyList) : ∃ ws, replacePyList f t xs = some ws := by
  obtain ⟨w, hw⟩ := replaceObj_total f t hlen (PyObj.list xs)
  simp only [replaceObj] at hw
  cases hb : replacePyList f t xs with
  | none => rw [hb] at hw; simp at hw
  | some ws => exact ⟨ws, rfl⟩

theorem mapOpt_congr (g1 g2 : PyObj → Option PyObj) (hg : ∀ x, g1 x = g2 x) :
    ∀ xs, mapOpt g1 xs = mapOpt g2 xs := by
  intro xs
  induction xs with
  | nil => rfl
  | cons x xs ih => simp only [mapOpt, hg x, ih]

theorem mapOpt_id (g : PyObj → Option PyObj) (hg : ∀ x, g x = some x) :
    ∀ xs, mapOpt g xs = some xs := by
  intro xs
  induction xs with
  | nil => rfl
  | cons x xs ih => simp only [mapOpt, hg x, ih]

theorem mapOpt_fix (g : PyObj → Option PyObj) (hg : ∀ x y, g x = some y → y = x) :
    ∀ xs ys, mapOpt g xs = some ys → ys = xs := by
  intro xs
  induction xs with
  | nil => intro ys h; simp [mapOpt] at h; exact h
  | cons x xs ih =>
      intro ys h
      simp only [mapOpt] at h
      cases ha : g x with
      | none => rw [ha] at h; simp at h
      | some a =>
          cases hb : mapOpt g xs with
          | none => rw [ha, hb] at h; simp at h
          | some bs =>
              rw [ha, hb] at h
              simp at h
              rw [← h, hg x a ha, ih bs hb]

/-- Record-surgery lemma: rebuilding a `Procedure` from its own fields is the
identity. -/
theorem Procedure.eta (p : Procedure) :
    ({ operations := p.operations, arg_ids := p.arg_ids, result_ids := p.result_ids,
       promise_out_id := p.promise_out_id } : Procedure) = p := by
  cases p; rfl

/-- With both guards inactive, each operation passes through `stepOp`
unchanged. -/
theorem stepOp_noop (from_ids to_ids : List PyObj) (fw tw : PyObj)
    (hw : (truthy fw && truthy tw) = false)
    (hi : (from_ids.length != 0 && to_ids.length != 0) = false) (op : PyObj) :
    stepOp from_ids to_ids fw tw op = some op := by
  simp only [stepOp, hw, Bool.false_eq_true, if_false, hi]

/-- The worker substitution depends only on its guard being inactive: with a
falsy worker id on either side `stepOp` behaves as if none were supplied. -/
theorem stepOp_worker_skip (from_ids to_ids : List PyObj) (fw tw : PyObj)
    (hw : (truthy fw && truthy tw) = false) (op : PyObj) :
    stepOp from_ids to_ids fw tw op = stepOp from_ids to_ids PyObj.none PyObj.none op := by
  simp only [stepOp, hw]
  rfl

/-- The id-list substitution is skipped whenever either sequence is empty. -/
theorem stepOp_ids_skip (from_ids to_ids : List PyObj) (fw tw : PyObj)
    (hi : (from_ids.length != 0 && to_ids.length != 0) = false) (op : PyObj) :
    stepOp from_ids to_ids fw tw op = stepOp [] [] fw tw op := by
  simp only [stepOp, hi]
  cases hmid : (if (truthy fw && truthy tw) = true then
      Procedure.replace_operation_ids op [simplifyObj fw] [simplifyObj tw] else some op) with
  | none => simp
  | some op1 => simp

/-- Modelled from the spec: decoding inverts encoding exactly (the codec is
an "opaque bijection"). -/
theorem detail_simplify : ∀ x, detailObj (simplifyObj x) = x := by
  refine pyInd (fun x => detailObj (simplifyObj x) = x)
    (fun xs => detailPyList (simplifyPyList xs) = xs) ?_ ?_ ?_ ?_ ?_ ?_ ?_ ?_
  · intro n; rfl
  · intro s; simp [simplifyObj, detailObj, ofList]
  · intro b; rfl
  · rfl
  · intro xs hq
    simp [simplifyObj, detailObj, ofList, strCode, listCode, hq]
  · intro xs hq
    simp [simplifyObj, detailObj, ofList, strCode, listCode, tupleCode, hq]
  · rfl
  · intro x xs hp hq
    simp [simplifyPyList, detailPyList, hp, hq]

/-- Deep copy is (value-level) the identity. -/
theorem deepcopyObj_eq : ∀ x, deepcopyObj x = x := by
  refine pyInd (fun x => deepcopyObj x = x) (fun xs => deepcopyPyList xs = xs)
    ?_ ?_ ?_ ?_ ?_ ?_ ?_ ?_
  · intro n; rfl
  · intro s; rfl
  · intro b; rfl
  · rfl
  · intro xs hq; simp [deepcopyObj, hq]
  · intro xs hq; simp [deepcopyObj, hq]
  · rfl
  · intro x xs hp hq; simp [deepcopyPyList, hp, hq]

/-- The empty-guard run of `update_ids` is the identity (no exception). -/
theorem update_ids_noop (p : Procedure) :
    Procedure.update_ids p [] [] PyObj.none PyObj.none = some p := by
  simp only [Procedure.update_ids]
  rw [mapOpt_id _ (fun op => stepOp_noop [] [] PyObj.none PyObj.none rfl rfl op)]

/-- Inversion of a successful `update_ids` call: only `operations` changes,
elementwise by `stepOp`. -/
theorem update_ids_inv (p q : Procedure) (fids tids : List PyObj) (fw tw : PyObj)
    (h : Procedure.update_ids p fids tids fw tw = some q) :
    q.arg_ids = p.arg_ids ∧ q.result_ids = p.result_ids ∧
      q.promise_out_id = p.promise_out_id ∧
      mapOpt (stepOp fids tids fw tw) p.operations = some q.operations := by
  simp only [Procedure.update_ids] at h
  cases hm : mapOpt (stepOp fids tids fw tw) p.operations with
  | none => rw [hm] at h; simp at h
  | some ops =>
      rw [hm] at h
      simp at h
      rw [← h]
      exact ⟨rfl, rfl, rfl, rfl⟩

/-- A worker-only identity pass leaves each operation unchanged. -/
theorem stepOp_worker_self (w op y : PyObj) (h : stepOp [] [] w w op = some y) : y = op := by
  simp only [stepOp] at h
  cases hg : truthy w && truthy w with
  | false =>
      rw [hg] at h
      simp at h
      exact h.symm
  | true =>
      rw [hg] at h
      simp only [Bool.true_eq_false, if_true, if_pos] at h
      cases hr : Procedure.replace_operation_ids op [simplifyObj w] [simplifyObj w] with
      | none => rw [hr] at h; simp at h
      | some op1 =>
          rw [hr] at h
          simp at h
          rw [← h]
          exact replace_operation_ids_self (simplifyObj w) op op1 hr

/-- With both id sequences non-empty and no workers, `stepOp` is exactly one
`replace_operation_ids` pass over the encoded id sequences. -/
theorem stepOp_ids_only (fids tids : List PyObj)
    (hi : (fids.length != 0 && tids.length != 0) = true) (op : PyObj) :
    stepOp fids tids PyObj.none PyObj.none op =
      Procedure.replace_operation_ids op (List.map simplifyObj fids)
        (List.map simplifyObj tids) := by
  simp only [stepOp, hi]
  rfl

/-- Lift of `replaceObj_path` through the (never itself tested) top-level
record: pointwise description of a successful `replace_operation_ids` run at
every path with no replaced strict ancestor. -/
theorem replace_top_path (f t : List PyObj) (op op1 : PyObj)
    (h : Procedure.replace_operation_ids op f t = some op1) (i : Nat) (rest : List Nat)
    (x : PyObj) (hx : sub op (i :: rest) = some x)
    (ha : noReplacedAncestor f op (i :: rest) = true) :
    (isMatch f x = true → sub op1 (i :: rest) = t.get? (firstIdx f x)) ∧
    (isMatch f x = false → isSeq x = false → sub op1 (i :: rest) = some x) ∧
    (isMatch f x = false → ∀ k, kindLen x = some k →
      ∃ y, sub op1 (i :: rest) = some y ∧ kindLen y = some k) := by
  cases op with
  | list xs =>
      simp only [Procedure.replace_operation_ids] at h
      cases hb : replacePyList f t xs with
      | none => rw [hb] at h; simp at h
      | some zs =>
          rw [hb] at h
          simp at h
          subst h
          simp only [sub, childAt] at hx
          cases hcy : PyList.get? xs i with
          | none => rw [hcy] at hx; simp at hx
          | some y =>
              rw [hcy] at hx
              simp only [noReplacedAncestor, childAt, hcy] at ha
              obtain ⟨w, hw, hrw⟩ := replacePyList_get f t xs zs hb i y hcy
              have hres := replaceObj_path f t rest y w hrw ha x hx
              refine ⟨?_, ?_, ?_⟩
              · intro hm
                simp only [sub, childAt, hw]
                exact hres.1 hm
              · intro hm hs
                simp only [sub, childAt, hw]
                exact hres.2.1 hm hs
              · intro hm k hk
                simp only [sub, childAt, hw]
                exact hres.2.2 hm k hk
  | tuple xs =>
      simp only [Procedure.replace_operation_ids] at h
      cases hb : replacePyList f t xs with
      | none => rw [hb] at h; simp at h
      | some zs =>
          rw [hb] at h
          simp at h
          subst h
          simp only [sub, childAt] at hx
          cases hcy : PyList.get? xs i with
          | none => rw [hcy] at hx; simp at hx
          | some y =>
              rw [hcy] at hx
              simp only [noReplacedAncestor, childAt, hcy] at ha
              obtain ⟨w, hw, hrw⟩ := replacePyList_get f t xs zs hb i y hcy
              have hres := replaceObj_path f t rest y w hrw ha x hx
              refine ⟨?_, ?_, ?_⟩
              · intro hm
                simp only [sub, childAt, hw]
                exact hres.1 hm
              · intro hm hs
                simp only [sub, childAt, hw]
                exact hres.2.1 hm hs
              · intro hm k hk
                simp only [sub, childAt, hw]
                exact hres.2.2 hm k hk
  | int n => simp [Procedure.replace_operation_ids] at h
  | str s => simp [Procedure.replace_operation_ids] at h
  | bytes b => simp [Procedure.replace_operation_ids] at h
  | none => simp [Procedure.replace_operation_ids] at h

/-- The rewrite rebuilds the top-level record with its own container type
and arity. -/
theorem replace_top_shape (f t : List PyObj) (op op1 : PyObj)
    (h : Procedure.replace_operation_ids op f t = some op1) :
    ∀ k, kindLen op = some k → kindLen op1 = some k := by
  intro k hk
  cases op with
  | list xs =>
      simp only [Procedure.replace_operation_ids] at h
      cases hb : replacePyList f t xs with
      | none => rw [hb] at h; simp at h
      | some zs =>
          rw [hb] at h
          simp at h
          subst h
          simp only [kindLen] at hk ⊢
          rw [replacePyList_length f t xs zs hb]
          exact hk
  | tuple xs =>
      simp only [Procedure.replace_operation_ids] at h
      cases hb : replacePyList f t xs with
      | none => rw [hb] at h; simp at h
      | some zs =>
          rw [hb] at h
          simp at h
          subst h
          simp only [kindLen] at hk ⊢
          rw [replacePyList_length f t xs zs hb]
          exact hk
  | int n => simp [Procedure.replace_operation_ids] at h
  | str s => simp [Procedure.replace_operation_ids] at h
  | bytes b => simp [Procedure.replace_operation_ids] at h
  | none => simp [Procedure.replace_operation_ids] at h

/-- C3: for every operation record and parallel `from_ids`/`to_ids`, a
successful `replace_operation_ids` run replaces each element that has the
recognized identifier leaf shape (int or tuple) and is a member of
`from_ids` with the `to_ids` element at the index of the first value-equal
match, at every nesting depth (below any already-replaced element the
substituted target stands wholesale), and leaves every other leaf
byte-for-byte unchanged. -/
theorem claim_C3_targeted_substitution :
    ∀ (from_ids to_ids : List PyObj) (op op1 : PyObj) (path : List Nat) (x : PyObj),
      Procedure.replace_operation_ids op from_ids to_ids = some op1 →
      path ≠ [] → sub op path = some x →
      noReplacedAncestor from_ids op path = true →
      (isMatch from_ids x = true →
        sub op1 path = to_ids.get? (firstIdx from_ids x)) ∧
      (isMatch from_ids x = false → isSeq x = false → sub op1 path = some x) := by
  intro f t op op1 path x h hne hx ha
  cases path with
  | nil => exact absurd rfl hne
  | cons i rest =>
      have hres := replace_top_path f t op op1 h i rest x hx ha
      exact ⟨hres.1, hres.2.1⟩

/-- Witness for C3 at a depth-2 occurrence: in the record `(1, [2])`,
substituting 2 by 9 rewrites the leaf at path `[1, 0]`. -/
theorem claim_C3_witness :
    sub (pyTuple [PyObj.int 1, pyList [PyObj.int 9]]) [1, 0] =
      [PyObj.int 9].get? (firstIdx [PyObj.int 2] (PyObj.int 2)) :=
  (claim_C3_targeted_substitution [PyObj.int 2] [PyObj.int 9]
    (pyTuple [PyObj.int 1, pyList [PyObj.int 2]])
    (pyTuple [PyObj.int 1, pyList [PyObj.int 9]])
    [1, 0] (PyObj.int 2) rfl (by decide) rfl rfl).1 rfl

/-- C4: a successful `replace_operation_ids` run preserves the container
type (list vs tuple) and arity of the top-level record and of every nested
container that is not itself replaced as a matched identifier: the rewrite
replaces matched leaves only and never restructures the traversed record. -/
theorem claim_C4_shape_preservation :
    ∀ (from_ids to_ids : List PyObj) (op op1 : PyObj),
      Procedure.replace_operation_ids op from_ids to_ids = some op1 →
      (∀ k, kindLen op = some k → kindLen op1 = some k) ∧
      (∀ (path : List Nat) (x : PyObj), path ≠ [] → sub op path = some x →
        noReplacedAncestor from_ids op path = true → isMatch from_ids x = false →
        ∀ k, kindLen x = some k → ∃ y, sub op1 path = some y ∧ kindLen y = some k) := by
  intro f t op op1 h
  refine ⟨replace_top_shape f t op op1 h, ?_⟩
  intro path x hne hx ha hm k hk
  cases path with
  | nil => exact absurd rfl hne
  | cons i rest => exact (replace_top_path f t op op1 h i rest x hx ha).2.2 hm k hk

/-- Witness for C4: the nested list at path `[1]` keeps kind and arity. -/
theorem claim_C4_witness :
    ∃ y, sub (pyTuple [PyObj.int 1, pyList [PyObj.int 9]]) [1] = some y ∧
      kindLen y = some (true, 1) :=
  (claim_C4_shape_preservation [PyObj.int 2] [PyObj.int 9]
    (pyTuple [PyObj.int 1, pyList [PyObj.int 2]])
    (pyTuple [PyObj.int 1, pyList [PyObj.int 9]]) rfl).2
    [1] (pyList [PyObj.int 2]) (by decide) rfl rfl rfl (true, 1) rfl

/-- C5 counterexample: the claim that a mismatched-length substitution
"never raises a fault" is false — with `from_ids = [101, 102]` and
`to_ids = [201]`, rewriting the record `(102,)` looks up `to_ids[1]` and
raises `IndexError` (modelled as `Option.none`). -/
theorem claim_C5_counterexample :
    Procedure.replace_operation_ids (pyTuple [PyObj.int 102])
      [PyObj.int 101, PyObj.int 102] [PyObj.int 201] = Option.none := rfl

/-- C5 (amended): no length check is performed — a mismatched-length call
succeeds with the positional pairing whenever every matched leaf's
first-match index is within `to_ids` (in particular whenever `to_ids` is at
least as long as `from_ids`); a match at an index beyond `to_ids` raises
`IndexError`. -/
theorem claim_C5_amended_no_length_check :
    (Procedure.replace_operation_ids (pyTuple [PyObj.int 101])
      [PyObj.int 101, PyObj.int 102] [PyObj.int 201] = some (pyTuple [PyObj.int 201])) ∧
    (∀ (from_ids to_ids : List PyObj) (xs : PyList),
      from_ids.length ≤ to_ids.length →
      (∃ w, Procedure.replace_operation_ids (PyObj.list xs) from_ids to_ids = some w) ∧
      (∃ w, Procedure.replace_operation_ids (PyObj.tuple xs) from_ids to_ids = some w)) := by
  refine ⟨rfl, ?_⟩
  intro f t xs hlen
  obtain ⟨ws, hws⟩ := replacePyList_total f t hlen xs
  constructor
  · exact ⟨PyObj.list ws, by simp only [Procedure.replace_operation_ids, hws]⟩
  · exact ⟨PyObj.tuple ws, by simp only [Procedure.replace_operation_ids, hws]⟩

/-- Witness for C5 (amended), on another mismatched-length call (1 vs 2). -/
theorem claim_C5_witness :
    ∃ w, Procedure.replace_operation_ids (PyObj.list (ofList [PyObj.int 101]))
      [PyObj.int 101] [PyObj.int 201, PyObj.int 202] = some w :=
  (claim_C5_amended_no_length_check.2 [PyObj.int 101] [PyObj.int 201, PyObj.int 202]
    (ofList [PyObj.int 101]) (by decide)).1

/-- C7: `replace_operation_ids` is a function of its three inputs alone —
two successful runs on the same input return the same record (there is no
hidden state; in this value-level embedding the absence of mutation of the
input record is inherent, matching the source, which writes only into a
fresh `list(operation)` copy). -/
theorem claim_C7_pure_deterministic :
    ∀ (op : PyObj) (from_ids to_ids : List PyObj) (r1 r2 : PyObj),
      Procedure.replace_operation_ids op from_ids to_ids = some r1 →
      Procedure.replace_operation_ids op from_ids to_ids = some r2 → r1 = r2 := by
  intro op f t r1 r2 h1 h2
  rw [h1] at h2
  injection h2

/-- Witness for C7 at a concrete rewrite. -/
theorem claim_C7_witness : pyTuple [PyObj.int 9] = pyTuple [PyObj.int 9] :=
  claim_C7_pure_deterministic (pyTuple [PyObj.int 1]) [PyObj.int 1] [PyObj.int 9]
    (pyTuple [PyObj.int 9]) (pyTuple [PyObj.int 9]) rfl rfl

/-- C6: `update_ids` with empty id sequences and absent workers leaves the
procedure (operations, arg_ids, result_ids) unchanged and raises nothing;
moreover each of the two substitutions is silently skipped — behaving as if
its inputs were absent — whenever its inputs are not both present/non-empty. -/
theorem claim_C6_noop_guard :
    ∀ (p : Procedure) (from_ids to_ids : List PyObj) (fw tw : PyObj),
      (Procedure.update_ids p [] [] PyObj.none PyObj.none = some p) ∧
      ((truthy fw && truthy tw) = false →
        Procedure.update_ids p from_ids to_ids fw tw =
          Procedure.update_ids p from_ids to_ids PyObj.none PyObj.none) ∧
      ((from_ids.length != 0 && to_ids.length != 0) = false →
        Procedure.update_ids p from_ids to_ids fw tw =
          Procedure.update_ids p [] [] fw tw) := by
  intro p f t fw tw
  refine ⟨update_ids_noop p, ?_, ?_⟩
  · intro hw
    simp only [Procedure.update_ids]
    rw [mapOpt_congr _ _ (stepOp_worker_skip f t fw tw hw)]
  · intro hi
    simp only [Procedure.update_ids]
    rw [mapOpt_congr _ _ (stepOp_ids_skip f t fw tw hi)]

/-- Witness for C6: a falsy `from_worker` makes the call behave as if no
workers were supplied. -/
theorem claim_C6_witness :
    Procedure.update_ids ⟨[], [], [], PyObj.none⟩ [PyObj.int 1] [PyObj.int 2]
        (PyObj.int 0) (PyObj.int 3) =
      Procedure.update_ids ⟨[], [], [], PyObj.none⟩ [PyObj.int 1] [PyObj.int 2]
        PyObj.none PyObj.none :=
  (claim_C6_noop_guard ⟨[], [], [], PyObj.none⟩ [PyObj.int 1] [PyObj.int 2]
    (PyObj.int 0) (PyObj.int 3)).2.1 (by decide)

/-- C8: a successful `update_worker_ids(w, w)` call (same id on both sides)
returns the procedure entirely unchanged, and any successful
`update_worker_ids` call leaves `arg_ids` and `result_ids` untouched. -/
theorem claim_C8_worker_identity :
    ∀ (p : Procedure) (w fw tw : PyObj) (q r : Procedure),
      (Procedure.update_worker_ids p w w = some q → q = p) ∧
      (Procedure.update_worker_ids p fw tw = some r →
        r.arg_ids = p.arg_ids ∧ r.result_ids = p.result_ids) := by
  intro p w fw tw q r
  constructor
  · intro h
    obtain ⟨h1, h2, h3, h4⟩ := update_ids_inv p q [] [] w w h
    have hops := mapOpt_fix _ (fun x y hy => stepOp_worker_self w x y hy)
      p.operations q.operations h4
    obtain ⟨qo, qa, qr, qp⟩ := q
    obtain ⟨po, pa, pr2, pp⟩ := p
    simp_all
  · intro h
    obtain ⟨h1, h2, _, _⟩ := update_ids_inv p r [] [] fw tw h
    exact ⟨h1, h2⟩

/-- Witness for C8: rebinding worker id 7 to itself leaves the procedure
with operation `(7,)` unchanged. -/
theorem claim_C8_witness :
    (⟨[pyTuple [PyObj.int 7]], [PyObj.int 1], [PyObj.int 2], PyObj.none⟩ : Procedure) =
      ⟨[pyTuple [PyObj.int 7]], [PyObj.int 1], [PyObj.int 2], PyObj.none⟩ :=
  (claim_C8_worker_identity
    ⟨[pyTuple [PyObj.int 7]], [PyObj.int 1], [PyObj.int 2], PyObj.none⟩
    (PyObj.int 7) (PyObj.int 0) (PyObj.int 0)
    ⟨[pyTuple [PyObj.int 7]], [PyObj.int 1], [PyObj.int 2], PyObj.none⟩
    ⟨[pyTuple [PyObj.int 7]], [PyObj.int 1], [PyObj.int 2], PyObj.none⟩).1 rfl

/-- C10: the worker substitution of `update_ids` is guarded by Python
truthiness, not mere presence — a falsy worker id (`0`, `""`, `None`) on
either side silently skips the worker substitution even though both
arguments were explicitly supplied, so the call returns the procedure
unchanged. -/
theorem claim_C10_truthiness_guard :
    ∀ (p : Procedure) (fw tw w : PyObj),
      ((truthy fw = false ∨ truthy tw = false) →
        Procedure.update_worker_ids p fw tw = some p) ∧
      (Procedure.update_worker_ids p (PyObj.int 0) w = some p) ∧
      (Procedure.update_worker_ids p w (PyObj.str "") = some p) ∧
      (Procedure.update_worker_ids p PyObj.none w = some p) := by
  intro p fw tw w
  have key : ∀ (a b : PyObj), (truthy a && truthy b) = false →
      Procedure.update_worker_ids p a b = some p := by
    intro a b hab
    simp only [Procedure.update_worker_ids, Procedure.update_ids]
    rw [mapOpt_id _ (fun op => stepOp_noop [] [] a b hab rfl op)]
  refine ⟨?_, ?_, ?_, ?_⟩
  · intro h
    cases h with
    | inl h => exact key fw tw (by simp [h])
    | inr h => exact key fw tw (by simp [h])
  · exact key (PyObj.int 0) w (by simp [truthy])
  · exact key w (PyObj.str "") (by simp [truthy])
  · exact key PyObj.none w (by simp [truthy])

/-- Witness for C10: `update_worker_ids(0, 5)` is a silent no-op. -/
theorem claim_C10_witness :
    Procedure.update_worker_ids ⟨[pyTuple [PyObj.int 5]], [], [], PyObj.none⟩
        (PyObj.int 0) (PyObj.int 5) =
      some ⟨[pyTuple [PyObj.int 5]], [], [], PyObj.none⟩ :=
  (claim_C10_truthiness_guard ⟨[pyTuple [PyObj.int 5]], [], [], PyObj.none⟩
    (PyObj.int 0) (PyObj.int 5) PyObj.none).1 (Or.inl (by decide))

/-- C9: `copy()` returns a procedure whose operations are a (deep) copy
equal in value to the original's, whose `arg_ids`/`result_ids` are the very
same sequences (shared by reference in the source), and whose
`promise_out_id` is absent (`None`) regardless of the original's. -/
theorem claim_C9_copy :
    ∀ p : Procedure,
      (Procedure.copy p).operations = p.operations ∧
      (Procedure.copy p).arg_ids = p.arg_ids ∧
      (Procedure.copy p).result_ids = p.result_ids ∧
      (Procedure.copy p).promise_out_id = PyObj.none := by
  intro p
  have hmap : ∀ xs : List PyObj, List.map deepcopyObj xs = xs := by
    intro xs
    induction xs with
    | nil => rfl
    | cons x xs ih => simp [deepcopyObj_eq x, ih]
  exact ⟨hmap p.operations, rfl, rfl, rfl⟩

/-- List-level form of `detail_simplify`. -/
theorem detailPyList_simplify (xs : PyList) : detailPyList (simplifyPyList xs) = xs := by
  have h := detail_simplify (PyObj.list xs)
  simp only [simplifyObj, ofList, detailObj, strCode, listCode] at h
  norm_num at h
  exact h

/-- Shallow decoding inverts the shallow encoding of the operations list. -/
theorem detailShallow_round (ops : List PyObj) :
    detailShallowList (PyObj.tuple (PyList.cons (PyObj.int listCode)
      (PyList.cons (PyObj.tuple (ofList ops)) PyList.nil))) = some ops := by
  simp [detailShallowList, toList_ofList]

/-- C1 counterexample: the round trip does not reproduce `promise_out_id`
for every value — `detail` assigns the fourth tuple field raw, without
decoding it, so a string-valued `promise_out_id` comes back as its encoded
tuple form, not as the original string. -/
theorem claim_C1_counterexample :
    Procedure.detail (Procedure.simplify ⟨[], [], [], PyObj.str "out"⟩) =
        some ⟨[], [], [], simplifyObj (PyObj.str "out")⟩ ∧
      simplifyObj (PyObj.str "out") ≠ PyObj.str "out" := ⟨rfl, by decide⟩

/-- C1 (amended): `detail (simplify p)` reproduces `operations`, `arg_ids`
and `result_ids` exactly for arbitrary nesting, and returns
`promise_out_id` in its encoded form — equal to the original exactly when
the original is a fixed point of encoding (e.g. absent/`None` or an
integer id), but not for a string id. -/
theorem claim_C1_roundtrip_amended :
    ∀ p : Procedure,
      Procedure.detail (Procedure.simplify p) =
        some ⟨p.operations, p.arg_ids, p.result_ids, simplifyObj p.promise_out_id⟩ := by
  intro p
  simp only [Procedure.simplify, ofList]
  simp only [Procedure.detail]
  rw [detailShallow_round, detail_simplify, detail_simplify]
  simp [toList_ofList]

/-- C2: the concrete scenario — one record `("add", 101, 102, 103)` with
`arg_ids = [101, 102]`, `result_ids = [103]`; `update_args` with new arg
ids `[201, 202]` and `result_ids = [303]` yields `arg_ids == [201, 202]`,
`result_ids == [303]` and the record `("add", 201, 202, 303)` — and in
general a successful `update_args` installs the new id sequences and
produces its operations by one full-operations substitution pass over the
old arg ids to the new ones followed by one pass over the old result ids to
the new ones (each pass positional, applied at any depth, skipped when its
guard fails). -/
theorem claim_C2_update_args :
    (Procedure.update_args
        ⟨[pyTuple [PyObj.str "add", PyObj.int 101, PyObj.int 102, PyObj.int 103]],
          [PyObj.int 101, PyObj.int 102], [PyObj.int 103], PyObj.none⟩
        [⟨PyObj.int 201⟩, ⟨PyObj.int 202⟩] [PyObj.int 303] =
      some ⟨[pyTuple [PyObj.str "add", PyObj.int 201, PyObj.int 202, PyObj.int 303]],
        [PyObj.int 201, PyObj.int 202], [PyObj.int 303], PyObj.none⟩) ∧
    (∀ (p q : Procedure) (args : List ValueHandle) (rids : List PyObj),
      Procedure.update_args p args rids = some q →
      q.arg_ids = List.map (fun a => a.id) args ∧ q.result_ids = rids ∧
      q.promise_out_id = p.promise_out_id ∧
      ∃ ops1 : List PyObj,
        mapOpt (stepOp p.arg_ids (List.map (fun a => a.id) args) PyObj.none PyObj.none)
          p.operations = some ops1 ∧
        mapOpt (stepOp p.result_ids rids PyObj.none PyObj.none) ops1 =
          some q.operations) := by
  refine ⟨rfl, ?_⟩
  intro p q args rids h
  simp only [Procedure.update_args] at h
  cases h1 : Procedure.update_ids p p.arg_ids (List.map (fun a => a.id) args)
      PyObj.none PyObj.none with
  | none => rw [h1] at h; simp at h
  | some p1 =>
      rw [h1] at h
      simp only at h
      obtain ⟨ha1, hr1, hp1, hm1⟩ := update_ids_inv p p1 p.arg_ids
        (List.map (fun a => a.id) args) PyObj.none PyObj.none h1
      cases h2 : Procedure.update_ids
          ⟨p1.operations, List.map (fun a => a.id) args, p1.result_ids, p1.promise_out_id⟩
          p1.result_ids rids PyObj.none PyObj.none with
      | none => rw [h2] at h; simp at h
      | some p2 =>
          rw [h2] at h
          simp only [Option.some.injEq] at h
          obtain ⟨ha2, hr2, hp2, hm2⟩ := update_ids_inv _ p2 p1.result_ids rids
            PyObj.none PyObj.none h2
          subst h
          refine ⟨by simp [ha2, ha1], rfl, by simp [hp2, hp1], p1.operations, hm1, ?_⟩
          simp only at hm2
          rw [hr1] at hm2
          exact hm2

/-- Witness for C2's general clause at the concrete scenario: the resulting
`arg_ids` are the ids exposed by the new argument handles. -/
theorem claim_C2_witness :
    (⟨[pyTuple [PyObj.str "add", PyObj.int 201, PyObj.int 202, PyObj.int 303]],
        [PyObj.int 201, PyObj.int 202], [PyObj.int 303], PyObj.none⟩ : Procedure).arg_ids =
      List.map (fun a => a.id)
        [(⟨PyObj.int 201⟩ : ValueHandle), ⟨PyObj.int 202⟩] :=
  (claim_C2_update_args.2
    ⟨[pyTuple [PyObj.str "add", PyObj.int 101, PyObj.int 102, PyObj.int 103]],
      [PyObj.int 101, PyObj.int 102], [PyObj.int 103], PyObj.none⟩
    ⟨[pyTuple [PyObj.str "add", PyObj.int 201, PyObj.int 202, PyObj.int 303]],
      [PyObj.int 201, PyObj.int 202], [PyObj.int 303], PyObj.none⟩
    [⟨PyObj.int 201⟩, ⟨PyObj.int 202⟩] [PyObj.int 303] rfl).1
